import Mathlib

/-!
Verification of the FedoraDocsRAG build pipeline (`build.py`).

The file shallowly embeds the pure decision logic of the pipeline:

* `extract_repos_from_site` — the Repository Resolver's URL collection,
  scheme filtering, `.git` normalisation and first-wins deduplication
  (`build.py`, lines 137-173);
* `create_antora_playbook` — component discovery over checkouts, the
  component-name registry with first-wins deduplication, and playbook
  synthesis (`build.py`, lines 214-312);
* `extract_html_content` — the Content Extractor: exclusion of special
  filenames, the two-step article probe, navigation stripping, title
  resolution, flattened output names and the destination-directory state
  transformation (`build.py`, lines 338-421).

File-system reads are represented by the parsed values they produce
(a checkout is a `Repo`, a built page is a `Page` holding its parsed
markup); file-system writes are represented by an explicit destination
map `DestMap`.  Strings are Lean `String`s; single-character
`str.replace` is modelled as a character-wise map over `String.data`.
-/

set_option autoImplicit false

namespace FedoraDocsRAG

/-! ## Repository Resolver (`extract_repos_from_site`, build.py 137-173) -/

/-- One entry of `site_config["content"]["sources"]`; `url` is `none`
when the entry has no `url` key (then `source.get("url", "")` yields the
empty string). -/
structure SourceEntry where
  url : Option String
deriving DecidableEq

/-- Model of `url.startswith(pre)`: prefix test on the character list. -/
def strStartsWith (s pre : String) : Bool :=
  pre.data.isPrefixOf s.data

/-- Model of `url.endswith(suf)`: suffix test on the character list. -/
def strEndsWith (s suf : String) : Bool :=
  suf.data.isSuffixOf s.data

/-- The test `url and url.startswith(("https://", "http://", "git@"))`
from build.py line 158 (an empty string is falsy in Python). -/
def recognizedUrl (url : String) : Bool :=
  url ≠ "" && (strStartsWith url "https://" || strStartsWith url "http://" ||
    strStartsWith url "git@")

/-- The normalisation of build.py lines 160-161: append `".git"` when
the url does not already end with it. -/
def normalizeUrl (url : String) : String :=
  if strEndsWith url ".git" then url else url ++ ".git"

/-- The collection loop of build.py lines 156-162: keep the recognised
urls, normalised, in source order. -/
def collectUrls (sources : List SourceEntry) : List String :=
  sources.filterMap fun s =>
    let url := s.url.getD ""
    if recognizedUrl url then some (normalizeUrl url) else none

/-- The dedup loop of build.py lines 164-170: `seen` is the membership
set, the first occurrence of a url is kept. -/
def dedupFirst (seen : List String) : List String → List String
  | [] => []
  | u :: rest =>
    if seen.contains u then dedupFirst seen rest
    else u :: dedupFirst (u :: seen) rest

/-- `extract_repos_from_site` (build.py 137-173).  `none` stands for a
missing or unparsable `site.yml` (both return `[]`); `some sources`
stands for the parsed `content.sources` list (missing keys give
`some []`). -/
def extract_repos_from_site : Option (List SourceEntry) → List String
  | none => []
  | some sources => dedupFirst [] (collectUrls sources)

/-- Specification-level first-wins deduplication: keep each element and
delete its later repetitions. -/
def dedupSpec : List String → List String
  | [] => []
  | u :: rest => u :: (dedupSpec rest).filter (fun v => v != u)

theorem dedupSpec_sublist (l : List String) : (dedupSpec l).Sublist l := by
  induction l with
  | nil => simp [dedupSpec]
  | cons u rest ih =>
    exact List.Sublist.cons₂ u ((List.filter_sublist _).trans ih)

theorem mem_dedupSpec {v : String} {l : List String} :
    v ∈ dedupSpec l ↔ v ∈ l := by
  induction l with
  | nil => simp [dedupSpec]
  | cons u rest ih =>
    by_cases h : v = u
    · subst h; simp [dedupSpec]
    · simp [dedupSpec, List.mem_filter, h, ih]

theorem dedupSpec_nodup (l : List String) : (dedupSpec l).Nodup := by
  induction l with
  | nil => simp [dedupSpec]
  | cons u rest ih =>
    refine List.Nodup.cons ?_ (ih.filter _)
    intro hmem
    have := List.of_mem_filter hmem
    simp at this

theorem dedupFirst_eq_filter (l : List String) :
    ∀ seen : List String,
      dedupFirst seen l = (dedupSpec l).filter (fun v => !seen.contains v) := by
  induction l with
  | nil => intro seen; rfl
  | cons u rest ih =>
    intro seen
    cases h : seen.contains u with
    | true =>
      have h1 : (!seen.contains u) = false := by rw [h]; rfl
      simp only [dedupFirst, h, if_true, dedupSpec, List.filter_cons, h1,
        Bool.false_eq_true, if_false, List.filter_filter]
      rw [ih seen]
      apply List.filter_congr
      intro v _
      cases hcv : seen.contains v with
      | true => simp
      | false =>
        have hvu : (v == u) = false := by
          cases hvu : v == u with
          | false => rfl
          | true =>
            have hv : v = u := by simpa using hvu
            rw [hv, h] at hcv
            cases hcv
        simp [bne, hvu]
    | false =>
      have h1 : (!seen.contains u) = true := by rw [h]; rfl
      simp only [dedupFirst, h, Bool.false_eq_true, if_false, dedupSpec,
        List.filter_cons, h1, if_true, List.filter_filter]
      rw [ih (u :: seen)]
      congr 1
      apply List.filter_congr
      intro v _
      show (!(u :: seen).contains v) = (!seen.contains v && (v != u))
      rw [List.contains_cons]
      cases hvu : v == u <;> cases hcv : seen.contains v <;>
        simp only [hvu, hcv, bne] <;> rfl

theorem dedupFirst_eq_dedupSpec (l : List String) :
    dedupFirst [] l = dedupSpec l := by
  rw [dedupFirst_eq_filter]
  simp

/-- C5 helper: membership in the collected url list. -/
theorem mem_collectUrls {u : String} {sources : List SourceEntry} :
    u ∈ collectUrls sources ↔
      ∃ s ∈ sources, ∃ v, s.url = some v ∧ recognizedUrl v = true ∧
        u = normalizeUrl v := by
  simp only [collectUrls, List.mem_filterMap]
  constructor
  · rintro ⟨s, hs, hval⟩
    by_cases hr : recognizedUrl (s.url.getD "") = true
    · refine ⟨s, hs, ?_⟩
      cases hurl : s.url with
      | none =>
        rw [hurl] at hr
        simp [recognizedUrl] at hr
      | some v =>
        rw [hurl] at hr hval
        simp only [Option.getD_some] at hr hval
        rw [if_pos hr] at hval
        exact ⟨v, rfl, hr, (Option.some.injEq ..).mp hval.symm⟩
    · rw [if_neg hr] at hval
      exact absurd hval (by simp)
  · rintro ⟨s, hs, v, hurl, hr, hnorm⟩
    refine ⟨s, hs, ?_⟩
    rw [hurl]
    simp only [Option.getD_some]
    rw [if_pos hr, hnorm]

/-- C5.  `extract_repos_from_site` returns the recognised, normalised
source urls, deduplicated with the first occurrence winning and input
order preserved: the result is the spec-level first-wins dedup of the
collected urls, has no duplicates, is an order-preserving sublist of
the collected urls, and contains exactly the normalisations of the
recognised urls. -/
theorem extract_repos_from_site_dedup (sources : List SourceEntry) :
    extract_repos_from_site (some sources) = dedupSpec (collectUrls sources) ∧
    (extract_repos_from_site (some sources)).Nodup ∧
    (extract_repos_from_site (some sources)).Sublist (collectUrls sources) ∧
    (∀ u, u ∈ extract_repos_from_site (some sources) ↔
      ∃ s ∈ sources, ∃ v, s.url = some v ∧ recognizedUrl v = true ∧
        u = normalizeUrl v) := by
  have h : extract_repos_from_site (some sources) =
      dedupSpec (collectUrls sources) := dedupFirst_eq_dedupSpec _
  refine ⟨h, ?_, ?_, ?_⟩
  · rw [h]; exact dedupSpec_nodup _
  · rw [h]; exact dedupSpec_sublist _
  · intro u
    rw [h, mem_dedupSpec, mem_collectUrls]

/-! ## Flattened output names (`extract_html_content`, build.py 387-389) -/

/-- Model of `str(rel_path)` for a `pathlib` relative path given by its
components: the components joined by `"/"`. -/
def joinParts : List String → String
  | [] => ""
  | [part] => part
  | part :: rest => part ++ "/" ++ joinParts rest

/-- The flattened output file name of build.py line 388:
`str(rel_path).replace("/", "_")`.  A single-character `str.replace`
is exactly the character-wise substitution of `'/'` by `'_'`. -/
def out_name (relPath : String) : String :=
  String.mk (relPath.data.map fun c => if c = '/' then '_' else c)

theorem slashToJoiner_inj :
    ∀ xs ys : List Char, '_' ∉ xs → '_' ∉ ys →
      xs.map (fun c => if c = '/' then '_' else c) =
        ys.map (fun c => if c = '/' then '_' else c) → xs = ys := by
  intro xs
  induction xs with
  | nil =>
    intro ys _ _ h
    cases ys with
    | nil => rfl
    | cons b bs => exact absurd h (by simp)
  | cons a as ih =>
    intro ys hxs hys h
    cases ys with
    | nil => exact absurd h (by simp)
    | cons b bs =>
      simp only [List.map_cons, List.cons.injEq] at h
      obtain ⟨h1, h2⟩ := h
      have ha : a ≠ '_' := fun hc => hxs (hc ▸ List.mem_cons_self a as)
      have hb : b ≠ '_' := fun hc => hys (hc ▸ List.mem_cons_self b bs)
      have hab : a = b := by
        by_cases ha' : a = '/'
        · by_cases hb' : b = '/'
          · rw [ha', hb']
          · rw [if_pos ha', if_neg hb'] at h1
            exact absurd h1.symm hb
        · by_cases hb' : b = '/'
          · rw [if_neg ha', if_pos hb'] at h1
            exact absurd h1 ha
          · rwa [if_neg ha', if_neg hb'] at h1
      refine congrArg₂ List.cons hab ?_
      exact ih bs (fun hc => hxs (List.mem_cons_of_mem a hc))
        (fun hc => hys (List.mem_cons_of_mem b hc)) h2

/-- C1 counterexample.  The pages at relative paths `a/b/index.html`
and `a_b/index.html` are distinct, yet `extract_html_content` flattens
both to the same output name `a_b_index.html`, so the
separator-to-joiner transform is not injective and the two pages
overwrite each other's output and sidecar files. -/
theorem out_name_collision :
    joinParts ["a", "b", "index.html"] = "a/b/index.html" ∧
    joinParts ["a_b", "index.html"] = "a_b/index.html" ∧
    ("a/b/index.html" : String) ≠ "a_b/index.html" ∧
    out_name "a/b/index.html" = out_name "a_b/index.html" := by
  refine ⟨rfl, rfl, by decide, by decide⟩

/-- C1 (amended).  The transform from relative path to flattened output
name replaces path separators with the joiner character `'_'`; it is
injective on relative paths that contain no `'_'` character, but paths
whose components contain the joiner can collide (for example
`a/b/index.html` and `a_b/index.html`), so the collision-freedom the
spec claims does not hold in general. -/
theorem out_name_inj_of_no_joiner (p q : String)
    (hp : '_' ∉ p.data) (hq : '_' ∉ q.data)
    (h : out_name p = out_name q) : p = q := by
  have hdata : p.data.map (fun c => if c = '/' then '_' else c) =
      q.data.map (fun c => if c = '/' then '_' else c) :=
    congrArg String.data h
  exact congrArg String.mk (slashToJoiner_inj p.data q.data hp hq hdata)

/-- Witness for `out_name_inj_of_no_joiner` at the concrete path
`docs/page.html`. -/
theorem out_name_inj_of_no_joiner_witness :
    ('_' ∉ ("docs/page.html" : String).data) ∧
    ("docs/page.html" : String) = "docs/page.html" :=
  ⟨by decide, out_name_inj_of_no_joiner "docs/page.html" "docs/page.html"
    (by decide) (by decide) rfl⟩

/-! ## Component Deduplicator and Playbook Synthesizer
(`get_component_name`, build.py 214-222, and `create_antora_playbook`,
build.py 225-312) -/

/-- The observable outcome of reading an `antora.yml` manifest file.
`unreadable` covers an unreadable file or a YAML parse failure (the
`except` of build.py 221-222); `parsed v` is a successfully parsed
manifest whose `config.get("name")` is `v` (`none` when the `name` key
is absent). -/
inductive ManifestRead where
  | unreadable : ManifestRead
  | parsed : Option String → ManifestRead
deriving DecidableEq

/-- `get_component_name` (build.py 214-222). -/
def get_component_name : ManifestRead → Option String
  | .unreadable => none
  | .parsed v => v

/-- One entry of `repo_dir.iterdir()`: its name, whether it is a
directory, and the read of `<entry>/antora.yml` when that file exists. -/
structure DirEntry where
  ename : String
  isDir : Bool
  antoraYml : Option ManifestRead
deriving DecidableEq

/-- A cloned checkout: its directory name, the read of its root
`antora.yml` when present, and its directory listing. -/
structure Repo where
  rname : String
  rootAntora : Option ManifestRead
  entries : List DirEntry
deriving DecidableEq

/-- Python truthiness of the component name: `None` and `""` are
falsy. -/
def isTruthy : Option String → Bool
  | none => false
  | some s => s ≠ ""

/-- The test `component and component in seen_components` of build.py
lines 242 and 257. -/
def dupCheck : Option String → List String → Bool
  | none, _ => false
  | some s, seen => s ≠ "" && seen.contains s

/-- An accepted Component: its checkout directory name, its
`start_path` (`none` for a root component), and the component name its
manifest declared. -/
structure Component where
  repo : String
  start : Option String
  cname : Option String
deriving DecidableEq

/-- The playbook source entry rendered for a component (build.py 247
and 262-266). -/
def renderSource (repo : String) : Option String → String
  | none => "    - url: ./" ++ repo ++ "\n      branches: HEAD"
  | some sub =>
    "    - url: ./" ++ repo ++ "\n      start_path: " ++ sub ++
      "\n      branches: HEAD"

/-- The skipped-duplicate diagnostic label (build.py 243 and 258). -/
def skipLabel (repo : String) (start : Option String) (c : String) : String :=
  match start with
  | none => repo ++ " (root) -> @" ++ c
  | some sub => repo ++ "/" ++ sub ++ " -> @" ++ c

/-- The `source_details` label (build.py 248 and 267). -/
def detailLabel (repo : String) : Option String → String
  | none => repo ++ " (root)"
  | some sub => repo ++ "/" ++ sub

/-- The mutable state of the discovery loop of
`create_antora_playbook`: the component-name registry
`seen_components`, the accepted components (with their rendered
`sources` entries and `source_details` labels) and the
`skipped_duplicates` labels. -/
structure DedupState where
  seen : List String
  accepted : List Component
  sources : List String
  details : List String
  skipped : List String
deriving DecidableEq

/-- The per-manifest accept-or-skip step (build.py 241-249 and
256-268): a component whose truthy name is already registered is
skipped; otherwise it is accepted and its name, when truthy, is
registered. -/
def stepManifest (repo : String) (start : Option String) (m : ManifestRead)
    (st : DedupState) : DedupState :=
  let component := get_component_name m
  if dupCheck component st.seen then
    { st with skipped := st.skipped ++ [skipLabel repo start (component.getD "")] }
  else
    { seen := if isTruthy component then st.seen ++ [component.getD ""] else st.seen
      accepted := st.accepted ++ [⟨repo, start, component⟩]
      sources := st.sources ++ [renderSource repo start]
      details := st.details ++ [detailLabel repo start]
      skipped := st.skipped }

/-- The subdirectory scan of build.py 252-268: every directory entry
containing an `antora.yml` contributes a subdirectory component; the
Boolean is `repo_has_antora`. -/
def processEntries (repo : String) : List DirEntry → DedupState → Bool →
    DedupState × Bool
  | [], st, has => (st, has)
  | e :: rest, st, has =>
    match e.antoraYml with
    | some m =>
      if e.isDir then
        processEntries repo rest (stepManifest repo (some e.ename) m st) true
      else processEntries repo rest st has
    | none => processEntries repo rest st has

/-- Per-checkout processing (build.py 233-268): root manifest first,
then the subdirectory scan. -/
def processRepo (r : Repo) (st : DedupState) : DedupState × Bool :=
  match r.rootAntora with
  | some m => processEntries r.rname r.entries (stepManifest r.rname none m st) true
  | none => processEntries r.rname r.entries st false

/-- The outer checkout loop (build.py 233-271), also collecting
`repos_without_antora`. -/
def processRepos : List Repo → DedupState → List String →
    DedupState × List String
  | [], st, without => (st, without)
  | r :: rest, st, without =>
    match processRepo r st with
    | (st2, has) =>
      processRepos rest st2 (if has then without else without ++ [r.rname])

def emptyDedupState : DedupState := ⟨[], [], [], [], []⟩

/-- The fixed playbook text surrounding the source list (build.py
292-297). -/
def playbookHeader : String :=
  "site:\n  title: Fedora Documentation\n  start_page: quick-docs::index.adoc\ncontent:\n  sources:\n"

/-- The fixed playbook text following the source list (build.py
298-307). -/
def playbookFooter : String :=
  "\nui:\n  bundle:\n    url: https://gitlab.com/fedora/docs/docs-website/ui-bundle/-/jobs/artifacts/HEAD/raw/build/ui-bundle.zip?job=bundle-stable\n    snapshot: true\noutput:\n  clean: true\n  dir: ./public\nruntime:\n  fetch: true\n"

/-- The playbook file content (build.py 292-307): the fixed site
metadata around the newline-joined source entries. -/
def renderPlaybook (sources : List String) : String :=
  playbookHeader ++ String.intercalate "\n" sources ++ playbookFooter

/-- The result of `create_antora_playbook`: the final loop state, the
`repos_without_antora` diagnostic list, the returned Boolean and the
playbook file content when one is written. -/
structure PlaybookResult where
  state : DedupState
  reposWithoutAntora : List String
  ok : Bool
  written : Option String
deriving DecidableEq

/-- `create_antora_playbook` (build.py 225-312): run the discovery
loop over the checkouts; if no source was accepted return `False`
without writing a playbook, otherwise write the rendered playbook and
return `True`. -/
def create_antora_playbook (repo_dirs : List Repo) : PlaybookResult :=
  match processRepos repo_dirs emptyDedupState [] with
  | (st, without) =>
    if st.sources.isEmpty then ⟨st, without, false, none⟩
    else ⟨st, without, true, some (renderPlaybook st.sources)⟩

/-! ### The discovery order and the dedup fold -/

/-- One discovered component occurrence: checkout name, `start_path`
and the manifest read. -/
structure Disc where
  repo : String
  start : Option String
  manifest : ManifestRead
deriving DecidableEq

/-- The component a discovered occurrence turns into when accepted. -/
def discComponent (d : Disc) : Component :=
  ⟨d.repo, d.start, get_component_name d.manifest⟩

/-- The subdirectory components discovered in a directory listing, in
listing order. -/
def entriesDisc (repo : String) : List DirEntry → List Disc
  | [] => []
  | e :: rest =>
    match e.antoraYml with
    | some m =>
      if e.isDir then ⟨repo, some e.ename, m⟩ :: entriesDisc repo rest
      else entriesDisc repo rest
    | none => entriesDisc repo rest

/-- The components discovered in one checkout: root first, then
subdirectories. -/
def repoDisc (r : Repo) : List Disc :=
  (match r.rootAntora with
   | some m => [⟨r.rname, none, m⟩]
   | none => []) ++ entriesDisc r.rname r.entries

/-- The discovery order over all checkouts: checkout order, root
before subdirectories. -/
def discovered : List Repo → List Disc
  | [] => []
  | r :: rest => repoDisc r ++ discovered rest

/-- The dedup fold over a flat list of discovered components. -/
def runDedup : DedupState → List Disc → DedupState
  | st, [] => st
  | st, d :: rest => runDedup (stepManifest d.repo d.start d.manifest st) rest

theorem runDedup_append (l1 l2 : List Disc) :
    ∀ st : DedupState, runDedup st (l1 ++ l2) = runDedup (runDedup st l1) l2 := by
  induction l1 with
  | nil => intro st; rfl
  | cons d rest ih => intro st; exact ih (stepManifest d.repo d.start d.manifest st)

theorem processEntries_eq (repo : String) (es : List DirEntry) :
    ∀ (st : DedupState) (has : Bool),
      processEntries repo es st has =
        (runDedup st (entriesDisc repo es),
          has || !(entriesDisc repo es).isEmpty) := by
  induction es with
  | nil => intro st has; simp [processEntries, entriesDisc, runDedup]
  | cons e rest ih =>
    intro st has
    cases hy : e.antoraYml with
    | none => simp [processEntries, entriesDisc, hy, ih]
    | some m =>
      cases hd : e.isDir with
      | false => simp [processEntries, entriesDisc, hy, hd, ih]
      | true =>
        simp only [processEntries, entriesDisc, hy, hd, if_true, ih,
          runDedup, List.isEmpty_cons, Bool.not_false, Bool.or_true,
          Bool.true_or]

theorem processRepo_eq (r : Repo) (st : DedupState) :
    processRepo r st = (runDedup st (repoDisc r), !(repoDisc r).isEmpty) := by
  cases hr : r.rootAntora with
  | none =>
    simp [processRepo, repoDisc, hr, processEntries_eq]
  | some m =>
    simp only [processRepo, repoDisc, hr, processEntries_eq,
      List.singleton_append, runDedup, List.isEmpty_cons, Bool.not_false,
      Bool.true_or, Bool.or_true]

theorem processRepos_fst (repos : List Repo) :
    ∀ (st : DedupState) (without : List String),
      (processRepos repos st without).1 = runDedup st (discovered repos) := by
  induction repos with
  | nil => intro st without; rfl
  | cons r rest ih =>
    intro st without
    simp only [processRepos, processRepo_eq, discovered, runDedup_append]
    exact ih _ _

theorem create_antora_playbook_state (repos : List Repo) :
    (create_antora_playbook repos).state =
      runDedup emptyDedupState (discovered repos) := by
  rw [create_antora_playbook]
  have h := processRepos_fst repos emptyDedupState []
  cases hp : processRepos repos emptyDedupState [] with
  | mk st without =>
    rw [hp] at h
    by_cases hs : st.sources.isEmpty <;> simp [hs] <;> exact h

/-! ### Step-case helper lemmas -/

theorem stepManifest_skip {m : ManifestRead} {st : DedupState}
    (repo : String) (start : Option String)
    (h : dupCheck (get_component_name m) st.seen = true) :
    stepManifest repo start m st =
      { st with skipped := st.skipped ++
          [skipLabel repo start ((get_component_name m).getD "")] } := by
  simp [stepManifest, h]

theorem stepManifest_accept {m : ManifestRead} {st : DedupState}
    (repo : String) (start : Option String)
    (h : dupCheck (get_component_name m) st.seen = false) :
    stepManifest repo start m st =
      ⟨(if isTruthy (get_component_name m) then
          st.seen ++ [(get_component_name m).getD ""] else st.seen),
        st.accepted ++ [⟨repo, start, get_component_name m⟩],
        st.sources ++ [renderSource repo start],
        st.details ++ [detailLabel repo start],
        st.skipped⟩ := by
  simp [stepManifest, h]

theorem isTruthy_true_iff {c : Option String} :
    isTruthy c = true ↔ ∃ s, c = some s ∧ s ≠ "" := by
  cases c with
  | none => simp [isTruthy]
  | some s => simp [isTruthy]

theorem dupCheck_some_false {s : String} {seen : List String}
    (hs : s ≠ "") (h : dupCheck (some s) seen = false) :
    seen.contains s = false := by
  simpa [dupCheck, hs] using h

theorem dupCheck_true_name {c : Option String} {seen : List String}
    (h : dupCheck c seen = true) : ∃ s, c = some s ∧ s ≠ "" ∧
      seen.contains s = true := by
  cases c with
  | none => simp [dupCheck] at h
  | some s =>
    simp only [dupCheck, Bool.and_eq_true, decide_eq_true_eq] at h
    exact ⟨s, rfl, h.1, h.2⟩

theorem contains_append_singleton (seen : List String) (s n : String) :
    (seen ++ [s]).contains n = (seen.contains n || n == s) := by
  induction seen with
  | nil =>
    cases h : n == s with
    | false =>
      simp only [List.nil_append, List.contains_cons, h, List.contains_nil,
        Bool.or_false, Bool.false_or]
    | true =>
      simp only [List.nil_append, List.contains_cons, h, List.contains_nil,
        Bool.or_false, Bool.false_or]
  | cons a rest ih =>
    simp only [List.cons_append, List.contains_cons, ih, Bool.or_assoc]

/-! ### Registry and acceptance invariants -/

/-- The truthy (non-`None`, non-empty) declared name of a component. -/
def truthyName (c : Component) : Option String :=
  if isTruthy c.cname then c.cname else none

/-- The truthy names of a list of components, in order. -/
def acceptedNames (l : List Component) : List String :=
  l.filterMap truthyName

theorem acceptedNames_append (l1 l2 : List Component) :
    acceptedNames (l1 ++ l2) = acceptedNames l1 ++ acceptedNames l2 :=
  List.filterMap_append ..

theorem runDedup_seen_eq (l : List Disc) :
    ∀ st : DedupState, st.seen = acceptedNames st.accepted →
      (runDedup st l).seen = acceptedNames (runDedup st l).accepted := by
  induction l with
  | nil => intro st h; exact h
  | cons d rest ih =>
    intro st h
    apply ih
    cases hd : dupCheck (get_component_name d.manifest) st.seen with
    | true => rw [stepManifest_skip _ _ hd]; exact h
    | false =>
      rw [stepManifest_accept _ _ hd]
      cases ht : isTruthy (get_component_name d.manifest) with
      | false =>
        simp only [ht, Bool.false_eq_true, if_false, acceptedNames_append, h]
        simp [acceptedNames, truthyName, ht]
      | true =>
        obtain ⟨s, hc, hs⟩ := isTruthy_true_iff.mp ht
        simp only [ht, if_true, acceptedNames_append, h, hc, Option.getD_some]
        simp [acceptedNames, truthyName, isTruthy, hc, hs]

theorem runDedup_names_nodup (l : List Disc) :
    ∀ st : DedupState, st.seen = acceptedNames st.accepted →
      (acceptedNames st.accepted).Nodup →
      (acceptedNames (runDedup st l).accepted).Nodup := by
  induction l with
  | nil => intro st _ hn; exact hn
  | cons d rest ih =>
    intro st h hn
    cases hd : dupCheck (get_component_name d.manifest) st.seen with
    | true =>
      show (acceptedNames (runDedup (stepManifest d.repo d.start d.manifest st)
        rest).accepted).Nodup
      rw [stepManifest_skip _ _ hd]
      exact ih _ h hn
    | false =>
      show (acceptedNames (runDedup (stepManifest d.repo d.start d.manifest st)
        rest).accepted).Nodup
      rw [stepManifest_accept _ _ hd]
      cases ht : isTruthy (get_component_name d.manifest) with
      | false =>
        apply ih
        · simp only [ht, Bool.false_eq_true, if_false, acceptedNames_append, h]
          simp [acceptedNames, truthyName, ht]
        · simp only [acceptedNames_append]
          simpa [acceptedNames, truthyName, ht] using hn
      | true =>
        obtain ⟨s, hc, hs⟩ := isTruthy_true_iff.mp ht
        have hcont : st.seen.contains s = false :=
          dupCheck_some_false hs (by rw [← hc]; exact hd)
        have hsn : s ∉ acceptedNames st.accepted := by
          rw [← h]
          simpa using hcont
        apply ih
        · simp only [ht, if_true, acceptedNames_append, h, hc, Option.getD_some]
          simp [acceptedNames, truthyName, isTruthy, hc, hs]
        · simp only [acceptedNames_append]
          have hone : acceptedNames [⟨d.repo, d.start,
              get_component_name d.manifest⟩] = [s] := by
            simp [acceptedNames, truthyName, isTruthy, hc, hs]
          rw [hone]
          exact List.Nodup.append hn (List.nodup_singleton s)
            (List.disjoint_singleton.mpr hsn)

theorem runDedup_first_wins (l : List Disc) :
    ∀ (st : DedupState) (n : String),
      (runDedup st l).accepted.filter (fun c => truthyName c == some n) =
        st.accepted.filter (fun c => truthyName c == some n) ++
          (if st.seen.contains n then []
           else ((l.map discComponent).filter
             (fun c => truthyName c == some n)).take 1) := by
  induction l with
  | nil =>
    intro st n
    cases h : st.seen.contains n <;> simp [runDedup, h]
  | cons d rest ih =>
    intro st n
    show (runDedup (stepManifest d.repo d.start d.manifest st)
      rest).accepted.filter _ = _
    rw [List.map_cons]
    have hdC : discComponent d =
        (⟨d.repo, d.start, get_component_name d.manifest⟩ : Component) := rfl
    cases hd : dupCheck (get_component_name d.manifest) st.seen with
    | true =>
      obtain ⟨s, hc, hs, hcont⟩ := dupCheck_true_name hd
      rw [stepManifest_skip _ _ hd, ih]
      have htn : truthyName (discComponent d) = some s := by
        simp [discComponent, truthyName, isTruthy, hc, hs]
      by_cases hsn : s = n
      · subst hsn
        have hmem : s ∈ st.seen := by simpa using hcont
        simp [hmem]
      · have hPd : (truthyName (discComponent d) == some n) = false := by
          rw [htn]
          exact beq_eq_false_iff_ne.mpr (by simp [hsn])
        simp only [List.filter_cons, hPd, Bool.false_eq_true, if_false]
    | false =>
      rw [stepManifest_accept _ _ hd, ih, ← hdC]
      cases ht : isTruthy (get_component_name d.manifest) with
      | false =>
        have hPd : (truthyName (discComponent d) == some n) = false := by
          have h0 : truthyName (discComponent d) = none := by
            simp [discComponent, truthyName, ht]
          rw [h0]
          rfl
        simp only [ht, Bool.false_eq_true, if_false, List.filter_append,
          List.filter_cons, hPd, List.filter_nil, List.nil_append,
          List.append_nil, List.append_assoc]
      | true =>
        obtain ⟨s, hc, hs⟩ := isTruthy_true_iff.mp ht
        have hcont : st.seen.contains s = false :=
          dupCheck_some_false hs (by rw [← hc]; exact hd)
        have htn : truthyName (discComponent d) = some s := by
          simp [discComponent, truthyName, isTruthy, hc, hs]
        simp only [ht, if_true, hc, Option.getD_some,
          contains_append_singleton, List.filter_append, List.filter_cons,
          List.filter_nil]
        by_cases hsn : s = n
        · subst hsn
          have hPd : (truthyName (discComponent d) == some s) = true := by
            rw [htn]
            exact beq_self_eq_true _
          simp only [hPd, if_true, hcont, beq_self_eq_true, Bool.false_or,
            Bool.or_true, if_true, Bool.false_eq_true, if_false,
            List.take_succ_cons, List.take_zero,
            List.nil_append, List.append_nil, List.append_assoc]
        · have hPd : (truthyName (discComponent d) == some n) = false := by
            rw [htn]
            exact beq_eq_false_iff_ne.mpr (by simp [hsn])
          have hns : (n == s) = false :=
            beq_eq_false_iff_ne.mpr (fun h => hsn h.symm)
          simp only [hPd, Bool.false_eq_true, if_false, hns, Bool.or_false,
            List.nil_append, List.append_nil, List.append_assoc]

theorem runDedup_unnamed (l : List Disc) :
    ∀ st : DedupState,
      (runDedup st l).accepted.filter (fun c => c.cname.isNone) =
        st.accepted.filter (fun c => c.cname.isNone) ++
          ((l.filter fun d => (get_component_name d.manifest).isNone).map
            discComponent) := by
  induction l with
  | nil => intro st; simp [runDedup]
  | cons d rest ih =>
    intro st
    show (runDedup (stepManifest d.repo d.start d.manifest st)
      rest).accepted.filter _ = _
    cases hd : dupCheck (get_component_name d.manifest) st.seen with
    | true =>
      obtain ⟨s, hc, _, _⟩ := dupCheck_true_name hd
      rw [stepManifest_skip _ _ hd, ih]
      simp [List.filter_cons, hc]
    | false =>
      rw [stepManifest_accept _ _ hd, ih]
      cases hc : get_component_name d.manifest with
      | none =>
        simp [List.filter_append, List.filter_cons, hc, discComponent]
      | some s =>
        simp [List.filter_append, List.filter_cons, hc]

theorem runDedup_sources_eq (l : List Disc) :
    ∀ st : DedupState,
      st.sources = st.accepted.map (fun c => renderSource c.repo c.start) →
      (runDedup st l).sources =
        (runDedup st l).accepted.map (fun c => renderSource c.repo c.start) := by
  induction l with
  | nil => intro st h; exact h
  | cons d rest ih =>
    intro st h
    apply ih
    cases hd : dupCheck (get_component_name d.manifest) st.seen with
    | true => rw [stepManifest_skip _ _ hd]; exact h
    | false =>
      rw [stepManifest_accept _ _ hd]
      simp [h]

theorem runDedup_length (l : List Disc) :
    ∀ st : DedupState,
      (runDedup st l).accepted.length + (runDedup st l).skipped.length =
        st.accepted.length + st.skipped.length + l.length := by
  induction l with
  | nil => intro st; simp [runDedup]
  | cons d rest ih =>
    intro st
    simp only [runDedup]
    cases hd : dupCheck (get_component_name d.manifest) st.seen with
    | true =>
      rw [stepManifest_skip _ _ hd, ih]
      simp only [List.length_append, List.length_cons, List.length_nil]
      omega
    | false =>
      rw [stepManifest_accept _ _ hd, ih]
      simp only [List.length_append, List.length_cons, List.length_nil]
      omega

theorem runDedup_seen_skipped_congr (l : List Disc) :
    ∀ st1 st2 : DedupState, st1.seen = st2.seen → st1.skipped = st2.skipped →
      (runDedup st1 l).skipped = (runDedup st2 l).skipped ∧
      (runDedup st1 l).seen = (runDedup st2 l).seen := by
  induction l with
  | nil => intro st1 st2 h1 h2; exact ⟨h2, h1⟩
  | cons d rest ih =>
    intro st1 st2 h1 h2
    simp only [runDedup]
    cases hd : dupCheck (get_component_name d.manifest) st1.seen with
    | true =>
      have hd2 : dupCheck (get_component_name d.manifest) st2.seen = true := by
        rw [← h1]; exact hd
      rw [stepManifest_skip _ _ hd, stepManifest_skip _ _ hd2]
      exact ih _ _ h1 (by simp [h2])
    | false =>
      have hd2 : dupCheck (get_component_name d.manifest) st2.seen = false := by
        rw [← h1]; exact hd
      rw [stepManifest_accept _ _ hd, stepManifest_accept _ _ hd2]
      exact ih _ _ (by simp [h1]) h2

theorem isEmpty_map {α β : Type} (f : α → β) (l : List α) :
    (l.map f).isEmpty = l.isEmpty := by
  cases l <;> rfl

theorem create_antora_playbook_ok_written (repos : List Repo) :
    (create_antora_playbook repos).ok =
      !(create_antora_playbook repos).state.sources.isEmpty ∧
    (create_antora_playbook repos).written =
      (if (create_antora_playbook repos).state.sources.isEmpty then none
       else some (renderPlaybook
         (create_antora_playbook repos).state.sources)) := by
  cases hp : processRepos repos emptyDedupState [] with
  | mk st without =>
    simp only [create_antora_playbook, hp]
    cases hs : st.sources.isEmpty <;> simp [hs]

theorem create_antora_playbook_sources_eq_map (repos : List Repo) :
    (create_antora_playbook repos).state.sources =
      (create_antora_playbook repos).state.accepted.map
        (fun c => renderSource c.repo c.start) := by
  rw [create_antora_playbook_state]
  exact runDedup_sources_eq _ _ rfl

/-- C2.  Over any list of checkouts, the components accepted by
`create_antora_playbook` carry pairwise distinct non-empty declared
names; the name registry holds exactly the accepted truthy names
(registered once, never overwritten); for every name `n`, the accepted
components declaring `n` are exactly the first component in discovery
order (checkout order, root before subdirectories) that declares `n`;
and every discovered component is either accepted or recorded as a
skipped duplicate. -/
theorem create_antora_playbook_first_wins (repos : List Repo) :
    (acceptedNames (create_antora_playbook repos).state.accepted).Nodup ∧
    (create_antora_playbook repos).state.seen =
      acceptedNames (create_antora_playbook repos).state.accepted ∧
    (∀ n : String,
      (create_antora_playbook repos).state.accepted.filter
          (fun c => truthyName c == some n) =
        (((discovered repos).map discComponent).filter
          (fun c => truthyName c == some n)).take 1) ∧
    (create_antora_playbook repos).state.accepted.length +
        (create_antora_playbook repos).state.skipped.length =
      (discovered repos).length := by
  rw [create_antora_playbook_state]
  refine ⟨?_, ?_, ?_, ?_⟩
  · exact runDedup_names_nodup _ _ rfl List.nodup_nil
  · exact runDedup_seen_eq _ _ rfl
  · intro n
    rw [runDedup_first_wins]
    simp [emptyDedupState]
  · rw [runDedup_length]
    simp [emptyDedupState]

/-- C3.  The source entries rendered into the playbook are in exact
bijection with the accepted component list: the rendered list is the
image of the accepted list under the per-component rendering (same
count, same order, same checkout-relative url and, for subdirectory
components, the same `start_path`), and the written playbook contains
exactly those entries. -/
theorem create_antora_playbook_sources_bijection (repos : List Repo) :
    (create_antora_playbook repos).state.sources =
      (create_antora_playbook repos).state.accepted.map
        (fun c => renderSource c.repo c.start) ∧
    (create_antora_playbook repos).state.sources.length =
      (create_antora_playbook repos).state.accepted.length ∧
    (create_antora_playbook repos).written =
      (if (create_antora_playbook repos).state.accepted.isEmpty then none
       else some (renderPlaybook
         ((create_antora_playbook repos).state.accepted.map
           (fun c => renderSource c.repo c.start)))) := by
  have hsrc := create_antora_playbook_sources_eq_map repos
  refine ⟨hsrc, by rw [hsrc, List.length_map], ?_⟩
  have hw := (create_antora_playbook_ok_written repos).2
  rw [hw, hsrc, isEmpty_map]

/-- C6.  A discovered component whose manifest declares no name is
always accepted: the unnamed accepted components are exactly the
unnamed discovered components, in discovery order, no matter how many
there are. -/
theorem create_antora_playbook_unnamed_accepted (repos : List Repo) :
    (create_antora_playbook repos).state.accepted.filter
        (fun c => c.cname.isNone) =
      ((discovered repos).filter
        (fun d => (get_component_name d.manifest).isNone)).map
        discComponent := by
  rw [create_antora_playbook_state, runDedup_unnamed]
  simp [emptyDedupState]

/-- C7.  `create_antora_playbook` returns `False` and writes no
playbook exactly when the accepted component list is empty; the
playbook file is written exactly when the accepted list is
non-empty. -/
theorem create_antora_playbook_fails_when_empty (repos : List Repo) :
    (create_antora_playbook repos).ok =
      !(create_antora_playbook repos).state.accepted.isEmpty ∧
    (create_antora_playbook repos).written.isSome =
      !(create_antora_playbook repos).state.accepted.isEmpty := by
  obtain ⟨hok, hw⟩ := create_antora_playbook_ok_written repos
  have hsrc := create_antora_playbook_sources_eq_map repos
  constructor
  · rw [hok, hsrc, isEmpty_map]
  · rw [hw, hsrc, isEmpty_map]
    cases (create_antora_playbook repos).state.accepted.isEmpty <;> simp

/-- C9.  `get_component_name` returns `None` for an unreadable or
unparsable manifest and for a parsed manifest without a `name` key;
such a component is treated as unnamed: the dedup step always accepts
it, registers no name, records no skip, and (since the registry and the
skip list are unchanged) it can neither be skipped as a duplicate nor
cause any later component to be skipped. -/
theorem get_component_name_none_always_accepted :
    get_component_name ManifestRead.unreadable = none ∧
    get_component_name (ManifestRead.parsed none) = none ∧
    (∀ (repo : String) (start : Option String) (m : ManifestRead)
        (st : DedupState), get_component_name m = none →
      stepManifest repo start m st =
        ⟨st.seen, st.accepted ++ [⟨repo, start, none⟩],
          st.sources ++ [renderSource repo start],
          st.details ++ [detailLabel repo start], st.skipped⟩) ∧
    (∀ (st : DedupState) (d : Disc) (rest : List Disc),
        get_component_name d.manifest = none →
      (runDedup st (d :: rest)).skipped = (runDedup st rest).skipped ∧
      (runDedup st (d :: rest)).seen = (runDedup st rest).seen) := by
  have hstep : ∀ (repo : String) (start : Option String) (m : ManifestRead)
      (st : DedupState), get_component_name m = none →
      stepManifest repo start m st =
        ⟨st.seen, st.accepted ++ [⟨repo, start, none⟩],
          st.sources ++ [renderSource repo start],
          st.details ++ [detailLabel repo start], st.skipped⟩ := by
    intro repo start m st hm
    have hd : dupCheck (get_component_name m) st.seen = false := by
      rw [hm]; rfl
    rw [stepManifest_accept _ _ hd, hm]
    rfl
  refine ⟨rfl, rfl, hstep, ?_⟩
  intro st d rest hm
  have h1 := hstep d.repo d.start d.manifest st hm
  have h2 := runDedup_seen_skipped_congr rest
    (stepManifest d.repo d.start d.manifest st) st
    (by rw [h1]) (by rw [h1])
  exact h2

/-- Witness for `get_component_name_none_always_accepted`, instantiated
at an unreadable manifest, a concrete checkout name and the initial
state. -/
theorem get_component_name_none_always_accepted_witness :
    get_component_name ManifestRead.unreadable = none ∧
    stepManifest "repo-a" none ManifestRead.unreadable emptyDedupState =
      ⟨[], [⟨"repo-a", none, none⟩], [renderSource "repo-a" none],
        [detailLabel "repo-a" none], []⟩ ∧
    (runDedup emptyDedupState
        [⟨"repo-a", none, ManifestRead.unreadable⟩]).skipped =
      (runDedup emptyDedupState []).skipped :=
  ⟨get_component_name_none_always_accepted.1,
    get_component_name_none_always_accepted.2.2.1 "repo-a" none
      ManifestRead.unreadable emptyDedupState rfl,
    (get_component_name_none_always_accepted.2.2.2 emptyDedupState
      ⟨"repo-a", none, ManifestRead.unreadable⟩ [] rfl).1⟩

/-! ## Content Extractor (`extract_html_content`, build.py 338-421) -/

mutual
/-- A node of a parsed HTML document: an element with its tag, its
`class` attribute tokens and its children, or a text run. -/
inductive Node where
  | elem : String → List String → NodeList → Node
  | text : String → Node

/-- A list of sibling nodes (mutual with `Node` so the tree functions
are mutually structural). -/
inductive NodeList where
  | nil : NodeList
  | cons : Node → NodeList → NodeList
end

mutual
/-- `soup.find`: the first element in document pre-order whose tag and
classes satisfy the probe, the element itself before its descendants. -/
def findFirst (p : String → List String → Bool) : Node → Option Node
  | .elem t cls ch =>
    if p t cls then some (.elem t cls ch) else findFirstL p ch
  | .text _ => none

/-- `soup.find` over a sibling list. -/
def findFirstL (p : String → List String → Bool) : NodeList → Option Node
  | .nil => none
  | .cons n rest =>
    match findFirst p n with
    | some r => some r
    | none => findFirstL p rest
end

mutual
/-- `find_all(tags)` + `decompose` inside a node (build.py 379-380):
remove every descendant element whose tag is listed. -/
def stripNode (tags : List String) : Node → Node
  | .elem t cls ch => .elem t cls (stripList tags ch)
  | .text s => .text s

/-- `find_all(tags)` + `decompose` over a sibling list. -/
def stripList (tags : List String) : NodeList → NodeList
  | .nil => .nil
  | .cons n rest =>
    match n with
    | .elem t cls ch =>
      if tags.contains t then stripList tags rest
      else .cons (.elem t cls (stripList tags ch)) (stripList tags rest)
    | .text s => .cons (.text s) (stripList tags rest)
end

mutual
/-- The in-place effect of `decompose` on the whole document: replace
the first probe-match (the one `find` returned) by its stripped
version; `none` when the subtree holds no match. -/
def stripFirst (p : String → List String → Bool) (tags : List String) :
    Node → Option Node
  | .elem t cls ch =>
    if p t cls then some (.elem t cls (stripList tags ch))
    else
      match stripFirstL p tags ch with
      | some ch2 => some (.elem t cls ch2)
      | none => none
  | .text _ => none

/-- `stripFirst` over a sibling list. -/
def stripFirstL (p : String → List String → Bool) (tags : List String) :
    NodeList → Option NodeList
  | .nil => none
  | .cons n rest =>
    match stripFirst p tags n with
    | some n2 => some (.cons n2 rest)
    | none =>
      match stripFirstL p tags rest with
      | some rest2 => some (.cons n rest2)
      | none => none
end

/-- Rendering of the `class` attribute in `str(article)`. -/
def renderClasses : List String → String
  | [] => ""
  | cls => " class=\"" ++ String.intercalate " " cls ++ "\""

mutual
/-- `str(article)` (the f-string of build.py 396): serialised HTML of
a node. -/
def render : Node → String
  | .elem t cls ch =>
    "<" ++ t ++ renderClasses cls ++ ">" ++ renderList ch ++ "</" ++ t ++ ">"
  | .text s => s

/-- `str` over a sibling list. -/
def renderList : NodeList → String
  | .nil => ""
  | .cons n rest => render n ++ renderList rest
end

mutual
/-- `get_text(strip=True)`: the concatenation of the stripped text
descendants. -/
def textAll : Node → String
  | .elem _ _ ch => textAllL ch
  | .text s => s.trim

/-- `get_text(strip=True)` over a sibling list. -/
def textAllL : NodeList → String
  | .nil => ""
  | .cons n rest => textAll n ++ textAllL rest
end

/-- The probe `soup.find("article", class_="doc")` (build.py 371). -/
def isDocArticle (t : String) (cls : List String) : Bool :=
  t == "article" && cls.contains "doc"

/-- The fallback probe `soup.find("article")` (build.py 373). -/
def isArticle (t : String) (_cls : List String) : Bool :=
  t == "article"

/-- The probe `soup.find("title")` (build.py 383). -/
def isTitle (t : String) (_cls : List String) : Bool :=
  t == "title"

/-- The removed navigation tags (build.py 379). -/
def navTags : List String := ["aside", "nav", "script"]

/-- `pathlib.PurePath.stem`: the name without its suffix; the suffix
starts at the last dot when that dot is neither the first nor the last
character of the name. -/
def stem (nm : String) : String :=
  let cs := nm.data
  let tailLen := (cs.reverse.takeWhile (fun c => c ≠ '.')).length
  if tailLen = cs.length then nm
  else
    let i := cs.length - 1 - tailLen
    if 0 < i ∧ i < cs.length - 1 then String.mk (cs.take i) else nm

/-- One file found under `work_dir/public`: the components of its path
relative to `public_dir` (the last component is the file name) and its
parsed markup (the soup). -/
structure Page where
  parts : List String
  doc : NodeList

/-- `html_file.name`. -/
def pageName (p : Page) : String := p.parts.getLast?.getD ""

/-- `str(html_file.relative_to(public_dir))`. -/
def relPathStr (p : Page) : String := joinParts p.parts

/-- The contents of the destination directory, file name to file
content. -/
def DestMap : Type := String → Option String

/-- The destination directory created empty (`mkdir`), or after
clearing. -/
def emptyDest : DestMap := fun _ => none

/-- The clearing of previous output (build.py 352-356): delete the
files matching the globs `*.html` and `*.meta.json`. -/
def clearDest (d : DestMap) : DestMap :=
  fun k =>
    if strEndsWith k ".html" || strEndsWith k ".meta.json" then none
    else d k

/-- The license constant assigned to every page (build.py 40). -/
def FEDORA_LICENSE : String := "CC-BY-SA 4.0"

/-- `json.dumps` string escaping for the characters arising here. -/
def jsonEscapeChar (c : Char) : String :=
  if c = '"' then "\\\""
  else if c = '\\' then "\\\\"
  else if c = '\n' then "\\n"
  else if c = '\t' then "\\t"
  else if c = '\r' then "\\r"
  else String.mk [c]

/-- `json.dumps` string escaping. -/
def jsonEscape (s : String) : String :=
  String.join (s.data.map jsonEscapeChar)

/-- The metadata sidecar content (build.py 400-406): `json.dumps` with
`indent=2` of title, reconstructed public url and license. -/
def metaJson (title relPath : String) : String :=
  "\x7b\n  \"title\": \"" ++ jsonEscape title ++
    "\",\n  \"source_url\": \"" ++
    jsonEscape ("https://docs.fedoraproject.org/" ++ relPath) ++
    "\",\n  \"license\": \"" ++ jsonEscape FEDORA_LICENSE ++ "\"\n\x7d"

/-- The fixed exclusion set of build.py 364. -/
def excludedNames : List String := ["404.html", "sitemap.html", "search.html"]

/-- The two-step article probe (build.py 371-373) together with the
corresponding in-place sanitisation (build.py 379-380): the located
article with its navigation descendants removed, and the document as
mutated by `decompose`. -/
def locateArticle (doc : NodeList) : Option (Node × NodeList) :=
  match findFirstL isDocArticle doc with
  | some a =>
    some (stripNode navTags a, (stripFirstL isDocArticle navTags doc).getD doc)
  | none =>
    match findFirstL isArticle doc with
    | some a =>
      some (stripNode navTags a, (stripFirstL isArticle navTags doc).getD doc)
    | none => none

/-- The per-page state of the extraction loop: the success count, the
skipped-no-content count and the destination contents. -/
structure ExtractState where
  count : Nat
  skippedNoArticle : Nat
  dest : DestMap

/-- The loop body of build.py 362-408 for one page: skip excluded
names; probe for the article; on success resolve the title, flatten
the output name, and write the wrapped content and the metadata
sidecar. -/
def processPage (p : Page) (st : ExtractState) : ExtractState :=
  if excludedNames.contains (pageName p) then st
  else
    match locateArticle p.doc with
    | none => { st with skippedNoArticle := st.skippedNoArticle + 1 }
    | some (article, doc2) =>
      let title :=
        match findFirstL isTitle doc2 with
        | some telem => textAll telem
        | none => stem (pageName p)
      let outName := out_name (relPathStr p)
      let content := "<html><head><title>" ++ title ++
        "</title></head><body>" ++ render article ++ "</body></html>"
      let meta := metaJson title (relPathStr p)
      { count := st.count + 1
        skippedNoArticle := st.skippedNoArticle
        dest := fun k =>
          if k = outName ++ ".meta.json" then some meta
          else if k = outName then some content
          else st.dest k }

/-- The page loop of build.py 362-411. -/
def runPages : List Page → ExtractState → ExtractState
  | [], st => st
  | p :: rest, st => runPages rest (processPage p st)

/-- `extract_html_content` (build.py 338-421).  The generated tree is
`none` when `work_dir/public` does not exist (the function then
returns `0` leaving the destination untouched, before the `mkdir` and
the clearing); otherwise it is the list of files in `rglob` traversal
order, of which the pages are those matching `*.html`.  The
destination is `none` when the directory does not exist (`mkdir` then
creates it empty).  The function clears previous output, runs the page
loop, and returns the count of pages written with the new destination
contents. -/
def extract_html_content (publicTree : Option (List Page))
    (destDir : Option DestMap) : Nat × Option DestMap :=
  match publicTree with
  | none => (0, destDir)
  | some files =>
    let pages := files.filter fun p => strEndsWith (pageName p) ".html"
    let d0 : DestMap :=
      match destDir with
      | some d => d
      | none => emptyDest
    let final := runPages pages ⟨0, 0, clearDest d0⟩
    (final.count, some final.dest)

/-! ### Extractor lemmas and claims -/

theorem clearDest_clearDest (d : DestMap) :
    clearDest (clearDest d) = clearDest d := by
  funext k
  simp only [clearDest]
  cases h : (strEndsWith k ".html" || strEndsWith k ".meta.json") <;> simp [h]

theorem strEndsWith_append (s suf : String) :
    strEndsWith (s ++ suf) suf = true := by
  unfold strEndsWith
  rw [String.data_append]
  exact List.isSuffixOf_iff_suffix.mpr (List.suffix_append _ _)

theorem strEndsWith_out_name {s : String}
    (h : strEndsWith s ".html" = true) :
    strEndsWith (out_name s) ".html" = true := by
  unfold strEndsWith at h ⊢
  have hsuf : (".html" : String).data.IsSuffix s.data :=
    List.isSuffixOf_iff_suffix.mp h
  obtain ⟨t, ht⟩ := hsuf
  apply List.isSuffixOf_iff_suffix.mpr
  refine ⟨t.map (fun c => if c = '/' then '_' else c), ?_⟩
  show _ = (out_name s).data
  have : (out_name s).data = s.data.map (fun c => if c = '/' then '_' else c) :=
    rfl
  rw [this, ← ht, List.map_append]
  congr 1

theorem suffix_joinParts (parts : List String) :
    ∀ x : String, parts.getLast? = some x →
      x.data.IsSuffix (joinParts parts).data := by
  induction parts with
  | nil => intro x h; cases h
  | cons a rest ih =>
    intro x h
    cases rest with
    | nil =>
      have hx : a = x := by
        simpa using h
      subst hx
      exact List.suffix_refl _
    | cons b rest2 =>
      have h2 : (b :: rest2).getLast? = some x := by
        simpa [List.getLast?_cons_cons] using h
      have := ih x h2
      show x.data.IsSuffix (joinParts (a :: b :: rest2)).data
      have hj : joinParts (a :: b :: rest2) =
          a ++ "/" ++ joinParts (b :: rest2) := rfl
      rw [hj, String.data_append]
      exact this.trans (List.suffix_append _ _)

theorem strEndsWith_joinParts (parts : List String)
    (h : strEndsWith (parts.getLast?.getD "") ".html" = true) :
    strEndsWith (joinParts parts) ".html" = true := by
  cases hgl : parts.getLast? with
  | none =>
    rw [hgl] at h
    exact absurd h (by decide)
  | some x =>
    rw [hgl, Option.getD_some] at h
    unfold strEndsWith at h ⊢
    exact List.isSuffixOf_iff_suffix.mpr
      ((List.isSuffixOf_iff_suffix.mp h).trans (suffix_joinParts parts x hgl))

theorem clearDest_processPage (p : Page) (st : ExtractState)
    (h : strEndsWith (pageName p) ".html" = true) :
    clearDest (processPage p st).dest = clearDest st.dest := by
  have hrel : strEndsWith (relPathStr p) ".html" = true :=
    strEndsWith_joinParts p.parts h
  have hout : strEndsWith (out_name (relPathStr p)) ".html" = true :=
    strEndsWith_out_name hrel
  unfold processPage
  cases hexc : excludedNames.contains (pageName p) with
  | true => simp
  | false =>
    simp only [Bool.false_eq_true, if_false]
    cases hloc : locateArticle p.doc with
    | none => simp
    | some pr =>
      obtain ⟨article, doc2⟩ := pr
      funext k
      simp only [clearDest]
      cases hk : (strEndsWith k ".html" || strEndsWith k ".meta.json") with
      | true => rfl
      | false =>
        have hk1 : strEndsWith k ".html" = false :=
          (Bool.or_eq_false_iff.mp hk).1
        have hk2 : strEndsWith k ".meta.json" = false :=
          (Bool.or_eq_false_iff.mp hk).2
        have hkm : ¬(k = out_name (relPathStr p) ++ ".meta.json") := by
          intro he
          rw [he, strEndsWith_append] at hk2
          cases hk2
        have hko : ¬(k = out_name (relPathStr p)) := by
          intro he
          rw [he, hout] at hk1
          cases hk1
        simp [hkm, hko]

theorem clearDest_runPages (ps : List Page) :
    ∀ st : ExtractState,
      (∀ p ∈ ps, strEndsWith (pageName p) ".html" = true) →
      clearDest (runPages ps st).dest = clearDest st.dest := by
  induction ps with
  | nil => intro st _; rfl
  | cons p rest ih =>
    intro st hall
    show clearDest (runPages rest (processPage p st)).dest = _
    rw [ih _ (fun q hq => hall q (List.mem_cons_of_mem p hq)),
      clearDest_processPage p st (hall p (List.mem_cons_self p rest))]

/-- C10.  When the generated build output directory `work_dir/public`
does not exist, `extract_html_content` returns `0` and leaves the
destination untouched: an absent destination is not created and an
existing one keeps all its files, because the missing-input check
precedes both the `mkdir` and the clearing of prior output. -/
theorem extract_html_content_missing_build (destDir : Option DestMap) :
    extract_html_content none destDir = (0, destDir) := rfl

/-- C4.  Running `extract_html_content` a second time on the same
unchanged output tree and the destination produced by the first run
yields exactly the same count and byte-identical destination contents
(the second run clears the prior output of the same kind and then
regenerates it identically). -/
theorem extract_html_content_idempotent (publicTree : Option (List Page))
    (destDir : Option DestMap) :
    extract_html_content publicTree (extract_html_content publicTree destDir).2 =
      extract_html_content publicTree destDir := by
  cases publicTree with
  | none => rfl
  | some files =>
    have hpages : ∀ q ∈ files.filter (fun p => strEndsWith (pageName p) ".html"),
        strEndsWith (pageName q) ".html" = true :=
      fun q hq => (List.mem_filter.mp hq).2
    show extract_html_content (some files)
        (some (runPages (files.filter fun p => strEndsWith (pageName p) ".html")
          ⟨0, 0, clearDest (match destDir with
            | some d => d
            | none => emptyDest)⟩).dest) =
      extract_html_content (some files) destDir
    show (_, some (runPages _ ⟨0, 0, clearDest ((runPages _ _).dest)⟩).dest) = _
    rw [clearDest_runPages _ _ hpages]
    dsimp only
    rw [clearDest_clearDest]
    rfl

/-- C8.  A page that is not in the filename exclusion set and whose
parsed markup contains neither a `doc`-classed article container nor
any generic article container produces no output file and no sidecar
(the destination is unchanged), increments the skipped-no-content
count, and leaves the success count unchanged. -/
theorem processPage_no_article (p : Page) (st : ExtractState)
    (hexc : excludedNames.contains (pageName p) = false)
    (hdoc : findFirstL isDocArticle p.doc = none)
    (hany : findFirstL isArticle p.doc = none) :
    processPage p st = ⟨st.count, st.skippedNoArticle + 1, st.dest⟩ := by
  unfold processPage
  rw [hexc]
  simp only [Bool.false_eq_true, if_false, locateArticle, hdoc, hany]

/-- A navigation-only page used to instantiate
`processPage_no_article`. -/
def noArticlePage : Page :=
  ⟨["x.html"],
    NodeList.cons
      (Node.elem "p" [] (NodeList.cons (Node.text "hi") NodeList.nil))
      NodeList.nil⟩

/-- Witness for `processPage_no_article` at a concrete page with no
article container and the empty initial state. -/
theorem processPage_no_article_witness :
    excludedNames.contains (pageName noArticlePage) = false ∧
    findFirstL isDocArticle noArticlePage.doc = none ∧
    findFirstL isArticle noArticlePage.doc = none ∧
    processPage noArticlePage ⟨0, 0, emptyDest⟩ = ⟨0, 1, emptyDest⟩ :=
  ⟨rfl, rfl, rfl,
    processPage_no_article noArticlePage ⟨0, 0, emptyDest⟩ rfl rfl rfl⟩

end FedoraDocsRAG
